import Mathlib

/-!
Verification of the sequence-alignment and HMM-decoding core of the
repository (backend of the QGENOME demo).

The Python source is shallowly embedded: each Python function that the
claims touch becomes a Lean function of the same name (module paths become
namespaces).  Floating-point scores are embedded as exact integers where
every value the code can produce is integral (the hard-coded scoring
scheme match = 2, mismatch = -1, gap = -2 keeps all DP cells integral)
and as rationals where a genuine division occurs (normalized scores,
window averages, probabilities).  Python exceptions become `Except`
values.  The `while` loops of the traceback routines are embedded with an
explicit step budget (`fuel`) that is always initialized to `i + j`, an
upper bound on the number of iterations the Python loops can perform,
since every iteration decreases `i + j`.
-/

set_option maxRecDepth 10000

deriving instance DecidableEq for Except

/-- Error taxonomy of the validators (`ValueError` messages in the source). -/
inductive ValidationError where
  | invalidSymbol
  | emptySequence
  | sequenceTooLong
  | qubitBudget
deriving DecidableEq, Repr

/-- `VALID_BASES` from `physioq_encoder.py` (same set as `set('ACGT')` in
`hmm_models.py`). -/
def VALID_BASES : List Char := ['A', 'T', 'G', 'C']

/-- Python `str.strip()` on both ends (whitespace removal). -/
def pyStrip (s : List Char) : List Char :=
  ((s.dropWhile Char.isWhitespace).reverse.dropWhile Char.isWhitespace).reverse

namespace PhysioQEncoder

/-- `PhysioQEncoder.validate` from `physioq_encoder.py`: strip, upper-case,
reject characters outside `VALID_BASES`.  Note: no emptiness and no length
check happens here. -/
def validate (s : List Char) : Except ValidationError (List Char) :=
  let normalized := (pyStrip s).map Char.toUpper
  let invalid := normalized.filter (fun b => !(VALID_BASES.contains b))
  if invalid = [] then .ok normalized else .error .invalidSymbol

end PhysioQEncoder

/-- The cleaning step of `validate_sequence` in `hmm_models.py`:
`sequence.replace('\n', '').replace(' ', '').upper()`. -/
def cleanedSeq (s : List Char) : List Char :=
  (s.filter (fun c => c != '\n' && c != ' ')).map Char.toUpper

/-- `validate_sequence` from `hmm_models.py`: clean, reject invalid
characters, reject the empty result, reject results longer than 500. -/
def validate_sequence (s : List Char) : Except ValidationError (List Char) :=
  let cleaned := cleanedSeq s
  if cleaned.filter (fun c => !(VALID_BASES.contains c)) ≠ [] then
    .error .invalidSymbol
  else if cleaned.length = 0 then
    .error .emptySequence
  else if cleaned.length > 500 then
    .error .sequenceTooLong
  else
    .ok cleaned

namespace SmithWaterman

/-- Scoring scheme hard-coded in `SmithWaterman.__init__`. -/
def match_score : ℤ := 2

/-- Mismatch penalty from `SmithWaterman.__init__`. -/
def mismatch_penalty : ℤ := -1

/-- Gap penalty from `SmithWaterman.__init__`. -/
def gap_penalty : ℤ := -2

/-- `SmithWaterman._validate_inputs`: encoder validation plus a
non-emptiness check.  There is no length bound here. -/
def validate_inputs (s1 s2 : List Char) :
    Except ValidationError (List Char × List Char) := do
  let a ← PhysioQEncoder.validate s1
  let b ← PhysioQEncoder.validate s2
  if a.length = 0 ∨ b.length = 0 then .error .emptySequence
  else .ok (a, b)

/-- Row `i + 1` of the Smith–Waterman score matrix as a function of row `i`
(`prev`): the inner `for j` loop of the fill in `SmithWaterman.align`.
`c` is `seq1[i]`. -/
def scoreAux (b : List Char) (c : Char) (prev : ℕ → ℤ) : ℕ → ℤ
  | 0 => 0
  | j + 1 =>
    let matc := prev j +
      (if c = b.getD j ' ' then match_score else mismatch_penalty)
    let del := prev (j + 1) + gap_penalty
    let ins := scoreAux b c prev j + gap_penalty
    max (max (max matc del) ins) 0

/-- Cell `(i, j)` of the Smith–Waterman score matrix (row 0 and column 0
stay at their `np.zeros` initialization). -/
def score (a b : List Char) : ℕ → ℕ → ℤ
  | 0, _ => 0
  | i + 1, j => scoreAux b (a.getD i ' ') (score a b i) j

/-- Cell `(i, j)` of the traceback matrix written by the fill loop of
`SmithWaterman.align`.  The branch order is the source's: a zero cell gets
tag 0, then a diagonal move also gets tag 0, a delete (up) move tag 1 and
an insert (left) move tag 2. -/
def tag (a b : List Char) : ℕ → ℕ → ℕ
  | 0, _ => 0
  | _ + 1, 0 => 0
  | i + 1, j + 1 =>
    let matc := score a b i j +
      (if a.getD i ' ' = b.getD j ' ' then match_score else mismatch_penalty)
    let del := score a b i (j + 1) + gap_penalty
    let ins := score a b (i + 1) j + gap_penalty
    let best := max (max (max matc del) ins) 0
    if best = 0 then 0
    else if best = matc then 0
    else if best = del then 1
    else 2

/-- The row-major scan of `SmithWaterman.align` that records the maximum
cell value and its coordinates (strict `>` update, so the first maximum in
scan order wins). -/
def maxCell (a b : List Char) : ℤ × ℕ × ℕ :=
  ((List.range a.length).flatMap
      (fun i => (List.range b.length).map (fun j => (i + 1, j + 1)))).foldl
    (fun acc ij =>
      let best := score a b ij.1 ij.2
      if acc.1 < best then (best, ij.1, ij.2) else acc)
    (0, 0, 0)

/-- The loop body of `SmithWaterman._traceback`, with an explicit step
budget: walk from `(i, j)` while `i > 0`, `j > 0` and the traceback tag is
non-zero.  The source's dead `move == 0` branch (commented `# diagonal`
there) is kept verbatim: it is unreachable because the loop guard already
requires a non-zero tag.  Results are produced in the final
(reversed-walk) order. -/
def tracebackAux (a b : List Char) :
    ℕ → ℕ → ℕ → List Char × List Char × List Char
  | 0, _, _ => ([], [], [])
  | fuel + 1, i, j =>
    if 0 < i ∧ 0 < j ∧ tag a b i j ≠ 0 then
      let move := tag a b i j
      if move = 0 then
        let r := tracebackAux a b fuel (i - 1) (j - 1)
        (r.1 ++ [a.getD (i - 1) ' '], r.2.1 ++ [b.getD (j - 1) ' '],
          r.2.2 ++ [if a.getD (i - 1) ' ' = b.getD (j - 1) ' ' then 'E' else 'I'])
      else if move = 1 then
        let r := tracebackAux a b fuel (i - 1) j
        (r.1 ++ [a.getD (i - 1) ' '], r.2.1 ++ ['-'], r.2.2 ++ ['I'])
      else
        let r := tracebackAux a b fuel i (j - 1)
        (r.1 ++ ['-'], r.2.1 ++ [b.getD (j - 1) ' '], r.2.2 ++ ['I'])
    else ([], [], [])

/-- `SmithWaterman._traceback` from `(i, j)`: the loop iterates at most
`i + j` times because each iteration decreases `i + j`. -/
def tracebackFn (a b : List Char) (i j : ℕ) :
    List Char × List Char × List Char :=
  tracebackAux a b (i + j) i j

end SmithWaterman

/-- The dictionary returned by `SmithWaterman.align` (the fields the claims
are about). -/
structure SWResult where
  score : ℤ
  aligned_sequence1 : List Char
  aligned_sequence2 : List Char
  alignment_path : List Char
  start_position : ℕ × ℕ
  end_position : ℤ × ℤ
deriving DecidableEq, Repr

namespace SmithWaterman

/-- `SmithWaterman.align` after validation: fill (via `score`/`tag`/
`maxCell`), degenerate branch when no cell was ever positive, otherwise
traceback from the maximum cell. -/
def alignCore (a b : List Char) : SWResult :=
  let mc := maxCell a b
  if mc.2.1 = 0 ∨ mc.2.2 = 0 then
    { score := 0
      aligned_sequence1 := a
      aligned_sequence2 := b
      alignment_path := List.replicate a.length 'I'
      start_position := (0, 0)
      end_position := (0, 0) }
  else
    let r := tracebackFn a b mc.2.1 mc.2.2
    { score := mc.1
      aligned_sequence1 := r.1
      aligned_sequence2 := r.2.1
      alignment_path := r.2.2
      start_position := (mc.2.1, mc.2.2)
      end_position := ((mc.2.1 : ℤ) - r.1.length, (mc.2.2 : ℤ) - r.2.1.length) }

/-- `SmithWaterman.align`: validate, then the pure fill/traceback. -/
def align (s1 s2 : List Char) : Except ValidationError SWResult := do
  let v ← validate_inputs s1 s2
  .ok (alignCore v.1 v.2)

end SmithWaterman

example :
    SmithWaterman.align "AT".toList "AT".toList =
      .ok { score := 4, aligned_sequence1 := [], aligned_sequence2 := [],
            alignment_path := [], start_position := (2, 2),
            end_position := (2, 2) } := by decide

example : SmithWaterman.score "AT".toList "AT".toList 2 2 = 4 := by decide

namespace VQEAlignment

/-- Scoring scheme hard-coded in `VQEAlignment.__init__` (same values as
`SmithWaterman`). -/
def match_score : ℤ := 2

/-- Mismatch penalty from `VQEAlignment.__init__`. -/
def mismatch_penalty : ℤ := -1

/-- Gap penalty from `VQEAlignment.__init__`. -/
def gap_penalty : ℤ := -2

/-- `VQEAlignment._validate_inputs`: encoder validation, non-emptiness,
per-sequence 500 bound, then the qubit-budget check
`(len(seq1) + len(seq2)) * 3 > max_qubits`.  `max_qubits` defaults to
4096 in the constructor. -/
def validate_inputs (maxQubits : ℕ) (s1 s2 : List Char) :
    Except ValidationError (List Char × List Char) := do
  let a ← PhysioQEncoder.validate s1
  let b ← PhysioQEncoder.validate s2
  if a.length = 0 ∨ b.length = 0 then .error .emptySequence
  else if a.length > 500 ∨ b.length > 500 then .error .sequenceTooLong
  else if (a.length + b.length) * 3 > maxQubits then .error .qubitBudget
  else .ok (a, b)

/-- Row `i + 1` of the Needleman–Wunsch score matrix as a function of row
`i` (`prev`): the inner `for j` loop of `VQEAlignment._fill`.  `c` is
`seq1[i]` and `left0` is the `_init_matrices` value of column 0 of this
row. -/
def scoreAux (b : List Char) (c : Char) (prev : ℕ → ℤ) (left0 : ℤ) :
    ℕ → ℤ
  | 0 => left0
  | j + 1 =>
    let matc := prev j +
      (if c = b.getD j ' ' then match_score else mismatch_penalty)
    let del := prev (j + 1) + gap_penalty
    let ins := scoreAux b c prev left0 j + gap_penalty
    max (max matc del) ins

/-- Cell `(i, j)` of the Needleman–Wunsch score matrix of
`VQEAlignment._fill` (row 0 and column 0 carry cumulative gap penalties
from `_init_matrices`). -/
def score (a b : List Char) : ℕ → ℕ → ℤ
  | 0, j => j * gap_penalty
  | i + 1, j =>
    scoreAux b (a.getD i ' ') (score a b i) ((i + 1) * gap_penalty) j

/-- Cell `(i, j)` of the traceback matrix of `VQEAlignment._fill` /
`_init_matrices`: 0 diagonal, 1 up, 2 left; borders point along the
initialization (column 0 up, row 0 left); the interior branch order is
the source's `best == match`, `best == delete`, else. -/
def tag (a b : List Char) : ℕ → ℕ → ℕ
  | 0, 0 => 0
  | _ + 1, 0 => 1
  | 0, _ + 1 => 2
  | i + 1, j + 1 =>
    let matc := score a b i j +
      (if a.getD i ' ' = b.getD j ' ' then match_score else mismatch_penalty)
    let del := score a b i (j + 1) + gap_penalty
    let ins := score a b (i + 1) j + gap_penalty
    let best := max (max matc del) ins
    if best = matc then 0
    else if best = del then 1
    else 2

/-- The loop body of `VQEAlignment._traceback`, with an explicit step
budget: walk from `(i, j)` while `i > 0 or j > 0`, following the
traceback tags. -/
def tracebackAux (a b : List Char) :
    ℕ → ℕ → ℕ → List Char × List Char × List Char
  | 0, _, _ => ([], [], [])
  | fuel + 1, i, j =>
    if 0 < i ∨ 0 < j then
      let move := tag a b i j
      if move = 0 then
        let r := tracebackAux a b fuel (i - 1) (j - 1)
        (r.1 ++ [a.getD (i - 1) ' '], r.2.1 ++ [b.getD (j - 1) ' '],
          r.2.2 ++ [if a.getD (i - 1) ' ' = b.getD (j - 1) ' ' then 'E' else 'I'])
      else if move = 1 then
        let r := tracebackAux a b fuel (i - 1) j
        (r.1 ++ [a.getD (i - 1) ' '], r.2.1 ++ ['-'], r.2.2 ++ ['I'])
      else
        let r := tracebackAux a b fuel i (j - 1)
        (r.1 ++ ['-'], r.2.1 ++ [b.getD (j - 1) ' '], r.2.2 ++ ['I'])
    else ([], [], [])

/-- `VQEAlignment._traceback` starting from `(len(seq1), len(seq2))`: the
loop iterates at most `i + j` times because every reachable iteration
decreases `i + j` (border tags always point toward the origin). -/
def tracebackFn (a b : List Char) :
    List Char × List Char × List Char :=
  tracebackAux a b (a.length + b.length) a.length b.length

end VQEAlignment

/-- The dictionary returned by `VQEAlignment.align` (the fields the claims
are about): the raw DP score `scores[-1, -1]`, the 0–100 normalized
`alignment_score`, the aligned strings, the annotation path, and the
qubit count. -/
structure NWResult where
  alignment_score_raw : ℤ
  alignment_score : ℚ
  aligned_sequence1 : List Char
  aligned_sequence2 : List Char
  alignment_path : List Char
  qubits : ℕ
deriving DecidableEq, Repr

namespace VQEAlignment

/-- `VQEAlignment.align` after validation: fill, traceback, and the
normalization `(score - worst) / (best - worst)` clamped to `[0, 1]` and
scaled to 0–100. -/
def alignCore (a b : List Char) : NWResult :=
  let n := a.length
  let m := b.length
  let sc := score a b n m
  let r := tracebackFn a b
  let maxLen : ℚ := max n m
  let bestPossible : ℚ := maxLen * (match_score : ℚ)
  let worstPossible : ℚ := maxLen * (gap_penalty : ℚ)
  let normalized : ℚ := ((sc : ℚ) - worstPossible) / (bestPossible - worstPossible)
  { alignment_score_raw := sc
    alignment_score := max 0 (min 1 normalized) * 100
    aligned_sequence1 := r.1
    aligned_sequence2 := r.2.1
    alignment_path := r.2.2
    qubits := (n + m) * 3 }

/-- `VQEAlignment.align` (default `max_qubits = 4096`): validate, then the
pure fill/traceback/normalization. -/
def align (s1 s2 : List Char) : Except ValidationError NWResult := do
  let v ← validate_inputs 4096 s1 s2
  .ok (alignCore v.1 v.2)

/-- Python `range(0, stop, step)` (as iterated by the window loops), with
an explicit budget: at most `stop` elements are produced when
`step ≥ 1`. -/
def rangeByAux (stop step : ℕ) : ℕ → ℕ → List ℕ
  | 0, _ => []
  | fuel + 1, cur =>
    if cur < stop ∧ 0 < step then cur :: rangeByAux stop step fuel (cur + step)
    else []

/-- Python `range(0, stop, step)`. -/
def rangeBy (stop step : ℕ) : List ℕ :=
  rangeByAux stop step stop 0

/-- Python slice `seq[start:stop]`. -/
def slice (s : List Char) (start stop : ℕ) : List Char :=
  (s.drop start).take (stop - start)

end VQEAlignment

/-- The dictionary returned by the windowed branch of
`VQEAlignment.align_windowed` (the fields the claims are about): number of
windows, the average `alignment_score`, the per-window scores and the
concatenated annotation path. -/
structure WindowedResult where
  windows_processed : ℕ
  average_score : ℚ
  window_scores : List ℚ
  alignment_path : List Char
deriving DecidableEq, Repr

namespace VQEAlignment

/-- `VQEAlignment.align_windowed`: validate, delegate to `align` when both
sequences fit in one window, otherwise run `self.align` (the global
Needleman–Wunsch `align` of the same class) on every window pair of the
Cartesian product — outer loop over windows of `seq1`, inner loop over
windows of `seq2`, stride `window_size - overlap` — and aggregate the
average score and the concatenated annotation paths. -/
def align_windowed (s1 s2 : List Char) (window_size overlap : ℕ) :
    Except ValidationError (NWResult ⊕ WindowedResult) := do
  let v ← validate_inputs 4096 s1 s2
  let a := v.1
  let b := v.2
  if a.length ≤ window_size ∧ b.length ≤ window_size then
    let r ← align a b
    .ok (.inl r)
  else
    let stride := window_size - overlap
    let pairs := (rangeBy a.length stride).flatMap
      (fun start1 => (rangeBy b.length stride).map (fun start2 => (start1, start2)))
    let results ← pairs.mapM (fun st =>
      let end1 := min (st.1 + window_size) a.length
      let end2 := min (st.2 + window_size) b.length
      align (slice a st.1 end1) (slice b st.2 end2))
    let scores := results.map (·.alignment_score)
    let totalScore := scores.sum
    let avgScore := totalScore / (max 1 results.length : ℕ)
    .ok (.inr
      { windows_processed := results.length
        average_score := avgScore
        window_scores := scores
        alignment_path := (results.map (·.alignment_path)).flatten })

end VQEAlignment

example :
    (VQEAlignment.align "ATGC".toList "ATGC".toList).map
        (fun r => (r.alignment_score_raw, r.aligned_sequence1,
          r.aligned_sequence2, r.alignment_path, r.qubits)) =
      .ok (8, "ATGC".toList, "ATGC".toList, "EEEE".toList, 24) := by decide

example :
    (VQEAlignment.align_windowed "AAAA".toList "AAAA".toList 3 1).map
        (fun r => match r with
          | .inl _ => ([] : List Char)
          | .inr w => w.alignment_path) =
      .ok "EEEIEEIEEEE".toList := by decide

/-- An HMM configuration dictionary from `hmm_models.py` (the fields the
decoders read). -/
structure HMMConfig where
  states : List String
  n_states : ℕ
  start_prob : List ℚ
  trans_prob : List (List ℚ)
  emit_prob : List (List ℚ)
deriving DecidableEq, Repr

/-- `HMM_CONFIGS["2-state-exon-intron"]` from `hmm_models.py`.  The float
entries are carried as exact rationals in lowest terms
(0.5 = 1/2, 0.9 = 9/10, 0.1 = 1/10, 0.2 = 1/5, 0.8 = 4/5, 0.3 = 3/10,
0.25 = 1/4). -/
def hmm_2_state_exon_intron : HMMConfig where
  states := ["E", "I"]
  n_states := 2
  start_prob := [⟨1, 2, by decide, by decide⟩, ⟨1, 2, by decide, by decide⟩]
  trans_prob :=
    [[⟨9, 10, by decide, by decide⟩, ⟨1, 10, by decide, by decide⟩],
     [⟨1, 5, by decide, by decide⟩, ⟨4, 5, by decide, by decide⟩]]
  emit_prob :=
    [[⟨3, 10, by decide, by decide⟩, ⟨1, 5, by decide, by decide⟩,
      ⟨3, 10, by decide, by decide⟩, ⟨1, 5, by decide, by decide⟩],
     [⟨1, 4, by decide, by decide⟩, ⟨1, 4, by decide, by decide⟩,
      ⟨1, 4, by decide, by decide⟩, ⟨1, 4, by decide, by decide⟩]]

/-- `base_to_int` from `hmm_models.py` (A=0, C=1, G=2, T=3 after
upper-casing).  The source raises on any other character; decoders only
apply it to validated sequences, so the out-of-alphabet value 4 below is
never reached from them. -/
def base_to_int (c : Char) : ℕ :=
  if c.toUpper = 'A' then 0
  else if c.toUpper = 'C' then 1
  else if c.toUpper = 'G' then 2
  else if c.toUpper = 'T' then 3
  else 4

/-- Index of the first maximum of a list (strict update, so ties keep the
lowest index). -/
def argmaxIdx (l : List ℚ) : ℕ :=
  (l.enum.foldl (fun acc p => if acc.2 < p.2 then p else acc)
    (0, l.getD 0 0)).1

/-- Largest element of a list (0 for the empty list, which the decoders
never produce). -/
def maxQ : List ℚ → ℚ
  | [] => 0
  | x :: xs => xs.foldl max x

namespace ExactViterbi

/-- Modelled from the spec: the candidate scores `δ[t-1,j]·transition[j,k]`
feeding state `k` at step `t` (spec §4.4).  `run_classical_viterbi` in
`classical_viterbi.py` delegates the recurrence to the external `hmmlearn`
library, which is not part of this repository, so the decoder is modelled
from the spec's recurrence.  The spec's log-space arithmetic is carried in
probability space over exact rationals: `log` is strictly monotone, so all
maxima and argmaxima coincide, and the log-probability is finite exactly
when the probability computed here is positive. -/
def transInto (m : HMMConfig) (prev : List ℚ) (k : ℕ) : List ℚ :=
  (List.range m.n_states).map
    (fun j => prev.getD j 0 * (m.trans_prob.getD j []).getD k 0)

/-- Modelled from the spec: `δ[0,k] = start[k]·emission[k,obs[0]]`
(§4.4). -/
def deltaInit (m : HMMConfig) (o : ℕ) : List ℚ :=
  (List.range m.n_states).map
    (fun k => m.start_prob.getD k 0 * (m.emit_prob.getD k []).getD o 0)

/-- Modelled from the spec:
`δ[t,k] = max_j(δ[t-1,j]·transition[j,k])·emission[k,obs[t]]` (§4.4). -/
def deltaStep (m : HMMConfig) (prev : List ℚ) (o : ℕ) : List ℚ :=
  (List.range m.n_states).map
    (fun k => maxQ (transInto m prev k) * (m.emit_prob.getD k []).getD o 0)

/-- Modelled from the spec: the back-pointer row at one step, the lowest
maximizing predecessor for each state `k` (§4.4). -/
def bpStep (m : HMMConfig) (prev : List ℚ) : List ℕ :=
  (List.range m.n_states).map (fun k => argmaxIdx (transInto m prev k))

/-- Modelled from the spec: the forward sweep, returning the final `δ`
vector and the back-pointer rows for `t = 1, …, T-1` (§4.4). -/
def viterbiForward (m : HMMConfig) (d : List ℚ) :
    List ℕ → List ℚ × List (List ℕ)
  | [] => (d, [])
  | o :: rest =>
    let bp := bpStep m d
    let r := viterbiForward m (deltaStep m d o) rest
    (r.1, bp :: r.2)

/-- Modelled from the spec: reconstruct the state-index path by following
back-pointers from the final state (§4.4). -/
def backtrack (bps : List (List ℕ)) (last : ℕ) : List ℕ :=
  bps.foldr (fun bp acc => bp.getD (acc.headD 0) 0 :: acc) [last]

/-- Modelled from the spec: full Viterbi decoding of an observation-index
sequence — state-index path and the maximal path probability (§4.4). -/
def viterbiDecode (m : HMMConfig) (obs : List ℕ) : List ℕ × ℚ :=
  match obs with
  | [] => ([], 1)
  | o :: rest =>
    let f := viterbiForward m (deltaInit m o) rest
    (backtrack f.2 (argmaxIdx f.1), maxQ f.1)

end ExactViterbi

/-- `run_classical_viterbi` from `classical_viterbi.py`: validate, convert
bases to observation indices, decode (the decode itself modelled from the
spec, see `ExactViterbi`), and return the state-label path together with
the path-probability (the source's log-probability is `log` of it). -/
def run_classical_viterbi (m : HMMConfig) (s : List Char) :
    Except ValidationError (List String × ℚ) := do
  let cleaned ← validate_sequence s
  let obs := cleaned.map base_to_int
  let r := ExactViterbi.viterbiDecode m obs
  .ok (r.1.map (fun i => m.states.getD i ""), r.2)

/-- The per-step loop of `run_quantum_viterbi` in `qva_viterbi.py`.  The
quantum measurement (circuit simulation, shot sampling, and the bit-count
of the most frequent bitstring) is abstracted as `commit`, an arbitrary
function of the time step and the current probability estimate; the
source then reduces it `% n_states`, appends the committed state to the
path, and replaces the estimate with the committed state's transition
row. -/
def qvaRunAux (m : HMMConfig) (commit : ℕ → List ℚ → ℕ) :
    ℕ → List ℚ → List Char → List ℕ × List ℚ
  | _, probs, [] => ([], probs)
  | t, probs, _ :: rest =>
    let idx := commit t probs % m.n_states
    let probs2 := m.trans_prob.getD idx []
    let r := qvaRunAux m commit (t + 1) probs2 rest
    (idx :: r.1, r.2)

/-- The decoded state-index path of `run_quantum_viterbi` on a cleaned
sequence (estimate initialized to `start_prob`). -/
def qvaPath (m : HMMConfig) (commit : ℕ → List ℚ → ℕ)
    (obs : List Char) : List ℕ :=
  (qvaRunAux m commit 0 m.start_prob obs).1

/-- The current state-probability estimate of `run_quantum_viterbi` after
the first `k` steps on a cleaned sequence. -/
def qvaProbsAfter (m : HMMConfig) (commit : ℕ → List ℚ → ℕ)
    (obs : List Char) (k : ℕ) : List ℚ :=
  (qvaRunAux m commit 0 m.start_prob (obs.take k)).2

/-- `run_quantum_viterbi` from `qva_viterbi.py`: validate, run the
per-step loop from the start distribution, return state labels. -/
def run_quantum_viterbi (m : HMMConfig) (commit : ℕ → List ℚ → ℕ)
    (s : List Char) : Except ValidationError (List String) := do
  let cleaned ← validate_sequence s
  .ok ((qvaRunAux m commit 0 m.start_prob cleaned).1.map
    (fun i => m.states.getD i ""))

/-- The agreement computation of `compare_viterbi` in `main.py`: positions
are compared over `zip` (which truncates to the shorter path) and the
count is divided by the length of the quantum path.  Note the source has
no length check and no failure branch here. -/
def compare_viterbi_agreement (pathQ pathC : List String) : ℚ :=
  let agreement := ((pathQ.zip pathC).filter (fun p => p.1 == p.2)).length
  (agreement : ℚ) / (pathQ.length : ℚ) * 100

/-- The per-window local-mode aggregation asserted by the windowed
alignment claim (following the claim's words, for comparison with the
source's `align_windowed`): run the repository's local aligner
(`SmithWaterman`) on every window pair of the Cartesian product and
concatenate the annotation strings in window-iteration order. -/
def windowedLocalPathsClaim (a b : List Char) (w o : ℕ) : List Char :=
  let stride := w - o
  (((VQEAlignment.rangeBy a.length stride).flatMap
      (fun s1 => (VQEAlignment.rangeBy b.length stride).map
        (fun s2 => (s1, s2)))).map
    (fun st => (SmithWaterman.alignCore
        (VQEAlignment.slice a st.1 (min (st.1 + w) a.length))
        (VQEAlignment.slice b st.2 (min (st.2 + w) b.length))).alignment_path)).flatten

example :
    (run_classical_viterbi hmm_2_state_exon_intron "ATGC".toList).map
      (fun r => r.1.length) = .ok 4 := by decide

example : windowedLocalPathsClaim "AAAA".toList "AAAA".toList 3 1 = [] := by
  decide

example :
    qvaPath hmm_2_state_exon_intron (fun _ _ => 1) "ATGC".toList =
      [1, 1, 1, 1] := by decide


/-- Position-wise agreement count of two state-label paths (reference
definition for the comparator claims). -/
def agreeCount : List String → List String → ℕ
  | a :: as, b :: bs => (if a = b then 1 else 0) + agreeCount as bs
  | _, _ => 0

/-- Inversion for `Except` bind hitting an error. -/
theorem exceptBind_eq_error {ε α β : Type} {x : Except ε α}
    {f : α → Except ε β} {e : ε} (h : (x >>= f) = .error e) :
    x = .error e ∨ ∃ a, x = .ok a ∧ f a = .error e := by
  cases x with
  | error e' =>
    left
    have : e' = e := Except.error.inj h
    rw [this]
  | ok a => right; exact ⟨a, rfl, h⟩

/-- An `Except` bind avoids a given error if both stages do. -/
theorem exceptBind_ne_error {ε α β : Type} {x : Except ε α}
    {f : α → Except ε β} {e : ε} (hx : x ≠ .error e)
    (hf : ∀ a, f a ≠ .error e) : (x >>= f) ≠ .error e := by
  intro h
  rcases exceptBind_eq_error h with h1 | ⟨a, _, h2⟩
  · exact hx h1
  · exact hf a h2

/-- `PhysioQEncoder.validate` can only fail with `invalidSymbol`. -/
theorem PhysioQEncoder.validate_error {s : List Char} {e : ValidationError}
    (h : PhysioQEncoder.validate s = .error e) : e = .invalidSymbol := by
  simp only [PhysioQEncoder.validate] at h
  split at h
  · exact absurd h (by simp)
  · exact (Except.error.inj h).symm

/-- `VQEAlignment.validate_inputs` at the default budget never returns the
qubit-budget error: inputs passing the per-sequence 500 bound satisfy
`(len1 + len2) * 3 ≤ 3000 ≤ 4096`. -/
theorem VQEAlignment.validate_inputs_ne_qubitBudget (s1 s2 : List Char) :
    VQEAlignment.validate_inputs 4096 s1 s2 ≠ .error .qubitBudget := by
  unfold VQEAlignment.validate_inputs
  refine exceptBind_ne_error ?_ ?_
  · intro h
    exact absurd (PhysioQEncoder.validate_error h) (by simp)
  · intro a
    refine exceptBind_ne_error ?_ ?_
    · intro h
      exact absurd (PhysioQEncoder.validate_error h) (by simp)
    · intro b
      intro h
      split at h
      · exact absurd (Except.error.inj h) (by simp)
      · split at h
        · exact absurd (Except.error.inj h) (by simp)
        · split at h
          · rename_i hlen hbig
            push_neg at hlen
            omega
          · exact absurd h (by simp)

/-- Propagation: if every element maps to a non-budget-error value then so
does `mapM`. -/
theorem mapM_ne_qubitBudget {α β : Type} (l : List α)
    (f : α → Except ValidationError β)
    (h : ∀ x ∈ l, f x ≠ .error .qubitBudget) :
    l.mapM f ≠ .error .qubitBudget := by
  induction l with
  | nil => rw [List.mapM_nil]; intro hcon; exact Except.noConfusion hcon
  | cons x xs ih =>
    rw [List.mapM_cons]
    refine exceptBind_ne_error (h x (by simp)) ?_
    intro y
    refine exceptBind_ne_error (ih fun z hz => h z (by simp [hz])) ?_
    intro ys hcon
    exact Except.noConfusion hcon

/-- `VQEAlignment.align` never returns the qubit-budget error. -/
theorem VQEAlignment.align_ne_qubitBudget (s1 s2 : List Char) :
    VQEAlignment.align s1 s2 ≠ .error .qubitBudget := by
  unfold VQEAlignment.align
  refine exceptBind_ne_error (VQEAlignment.validate_inputs_ne_qubitBudget s1 s2) ?_
  intro v hcon
  exact Except.noConfusion hcon

/-- C10: for inputs passing the per-sequence 500-symbol bound the
qubit-budget branch of `VQEAlignment._validate_inputs` is unreachable at
the default `max_qubits = 4096` (since `(500 + 500) * 3 = 3000 ≤ 4096`):
neither validation, nor global `align`, nor `align_windowed` can ever
return the qubit-budget error, whatever the inputs. -/
theorem c10_qubit_budget_unreachable (s1 s2 : List Char) (w o : ℕ) :
    VQEAlignment.validate_inputs 4096 s1 s2 ≠ .error .qubitBudget ∧
    VQEAlignment.align s1 s2 ≠ .error .qubitBudget ∧
    VQEAlignment.align_windowed s1 s2 w o ≠ .error .qubitBudget := by
  refine ⟨VQEAlignment.validate_inputs_ne_qubitBudget s1 s2,
    VQEAlignment.align_ne_qubitBudget s1 s2, ?_⟩
  unfold VQEAlignment.align_windowed
  refine exceptBind_ne_error (VQEAlignment.validate_inputs_ne_qubitBudget s1 s2) ?_
  intro v
  dsimp only
  split
  · refine exceptBind_ne_error (VQEAlignment.align_ne_qubitBudget v.1 v.2) ?_
    intro r hcon
    exact Except.noConfusion hcon
  · refine exceptBind_ne_error
      (mapM_ne_qubitBudget _ _ fun st _ => VQEAlignment.align_ne_qubitBudget _ _) ?_
    intro rs hcon
    exact Except.noConfusion hcon

theorem exceptBind_ok {ε α β : Type} (a : α) (f : α → Except ε β) :
    (Except.ok a >>= f) = f a := rfl

/-- C1: the fill loop of `SmithWaterman.align` stores tag 0 both for
zero-valued cells and for diagonal moves, so `_traceback`, whose loop
guard requires a non-zero tag, stops at the first diagonal-or-zero cell —
not at the first zero-valued cell — and its `move == 0` diagonal branch is
dead code.  On `("AT", "AT")` the maximum cell `(2, 2)` holds value 4 with
tag 0, so the walk stops there immediately even though the cell's value is
not 0, and the returned alignment is empty instead of the diagonal
alignment of the common substring. -/
theorem c1_local_traceback_stops_at_nonzero_cell :
    SmithWaterman.maxCell "AT".toList "AT".toList = (4, 2, 2) ∧
    SmithWaterman.score "AT".toList "AT".toList 2 2 = 4 ∧
    SmithWaterman.tag "AT".toList "AT".toList 2 2 = 0 ∧
    SmithWaterman.align "AT".toList "AT".toList =
      .ok { score := 4, aligned_sequence1 := [], aligned_sequence2 := [],
            alignment_path := [], start_position := (2, 2),
            end_position := (2, 2) } := by decide

/-- C9: the exact decoder is deterministic — identical inputs give the
identical path and probability (the embedded decoder is a pure function of
the observation sequence and the model). -/
theorem c9_decode_exact_deterministic (m : HMMConfig) (s1 s2 : List Char)
    (h : s1 = s2) :
    run_classical_viterbi m s1 = run_classical_viterbi m s2 := by rw [h]

theorem c9_decode_exact_deterministic_witness :
    run_classical_viterbi hmm_2_state_exon_intron "ATGC".toList =
      run_classical_viterbi hmm_2_state_exon_intron "ATGC".toList :=
  c9_decode_exact_deterministic hmm_2_state_exon_intron
    "ATGC".toList "ATGC".toList rfl

/-- The back-pointer walk produces one state per observation plus the
final state. -/
theorem ExactViterbi.backtrack_length (bps : List (List ℕ)) (last : ℕ) :
    (ExactViterbi.backtrack bps last).length = bps.length + 1 := by
  induction bps with
  | nil => rfl
  | cons bp bps ih =>
    simp only [ExactViterbi.backtrack] at ih ⊢
    rw [List.foldr_cons, List.length_cons, ih, List.length_cons]

/-- The forward sweep produces one back-pointer row per remaining
observation. -/
theorem ExactViterbi.viterbiForward_bps_length (m : HMMConfig)
    (d : List ℚ) (obs : List ℕ) :
    (ExactViterbi.viterbiForward m d obs).2.length = obs.length := by
  induction obs generalizing d with
  | nil => rfl
  | cons o rest ih =>
    simp [ExactViterbi.viterbiForward, ih]

/-- The decoded state-index path has the length of the observation
sequence. -/
theorem ExactViterbi.viterbiDecode_path_length (m : HMMConfig)
    (obs : List ℕ) :
    (ExactViterbi.viterbiDecode m obs).1.length = obs.length := by
  cases obs with
  | nil => rfl
  | cons o rest =>
    simp [ExactViterbi.viterbiDecode, ExactViterbi.backtrack_length,
      ExactViterbi.viterbiForward_bps_length]

/-- The step-local decoder's path has the length of the observation
sequence. -/
theorem qvaRunAux_path_length (m : HMMConfig)
    (commit : ℕ → List ℚ → ℕ) (t : ℕ) (probs : List ℚ)
    (obs : List Char) :
    (qvaRunAux m commit t probs obs).1.length = obs.length := by
  induction obs generalizing t probs with
  | nil => rfl
  | cons c rest ih =>
    simp [qvaRunAux, ih]

/-- Position-wise: over equal-length paths the `zip`-based agreement of
the source counts every position. -/
theorem zip_filter_eq_agreeCount :
    ∀ pq pc : List String, pq.length = pc.length →
      ((pq.zip pc).filter (fun p => p.1 == p.2)).length = agreeCount pq pc := by
  intro pq
  induction pq with
  | nil =>
    intro pc h
    cases pc with
    | nil => rfl
    | cons b bs => simp at h
  | cons a as ih =>
    intro pc h
    cases pc with
    | nil => simp at h
    | cons b bs =>
      simp only [List.zip_cons_cons, List.filter_cons, agreeCount]
      by_cases hab : a = b
      · simp [hab, ih bs (by simpa using h)]
        omega
      · have : (a == b) = false := beq_eq_false_iff_ne.mpr hab
        simp [this, hab, ih bs (by simpa using h)]

/-- C7 (amended): `compare_viterbi` contains no length check and no
`LengthMismatch` failure branch at all; it always returns the percentage
of agreeing positions of the zipped paths over the quantum path's length.
Both decoders return paths whose length is the cleaned input's length, so
in every reachable call the lengths agree and the percentage counts every
position. -/
theorem c7_agreement_and_lengths :
    (∀ (m : HMMConfig) (commit : ℕ → List ℚ → ℕ) (s cleaned : List Char),
      validate_sequence s = .ok cleaned →
      (run_quantum_viterbi m commit s).map List.length = .ok cleaned.length ∧
      (run_classical_viterbi m s).map (fun r => r.1.length) =
        .ok cleaned.length) ∧
    (∀ pq pc : List String, pq.length = pc.length →
      compare_viterbi_agreement pq pc =
        (agreeCount pq pc : ℚ) / (pq.length : ℚ) * 100) := by
  constructor
  · intro m commit s cleaned h
    constructor
    · unfold run_quantum_viterbi
      rw [h, exceptBind_ok]
      simp [Except.map, qvaRunAux_path_length]
    · unfold run_classical_viterbi
      rw [h, exceptBind_ok]
      simp [Except.map, ExactViterbi.viterbiDecode_path_length]
  · intro pq pc h
    unfold compare_viterbi_agreement
    rw [zip_filter_eq_agreeCount pq pc h]

theorem c7_agreement_and_lengths_witness :
    ((run_quantum_viterbi hmm_2_state_exon_intron (fun _ _ => 0)
        "AT".toList).map List.length = .ok ("AT".toList.length) ∧
      (run_classical_viterbi hmm_2_state_exon_intron "AT".toList).map
        (fun r => r.1.length) = .ok ("AT".toList.length)) ∧
    compare_viterbi_agreement ["E"] ["I"] =
      (agreeCount ["E"] ["I"] : ℚ) / ((["E"] : List String).length : ℚ) * 100 :=
  ⟨c7_agreement_and_lengths.1 hmm_2_state_exon_intron (fun _ _ => 0)
      "AT".toList "AT".toList (by decide),
    c7_agreement_and_lengths.2 ["E"] ["I"] rfl⟩

/-- C7 (counterexample to the claim as stated): on decoder outputs of
differing lengths the comparator does not fail at all — it silently
returns a percentage (here 100, computed over the truncating `zip`). -/
theorem c7_counterexample :
    (["E"] : List String).length ≠ (["E", "I"] : List String).length ∧
    compare_viterbi_agreement ["E"] ["E", "I"] = 100 := by
  refine ⟨by decide, ?_⟩
  unfold compare_viterbi_agreement
  norm_num

/-- Prefix behaviour of the step-local loop: the estimate after `k + 1`
steps is exactly the transition row of the state committed at step `k`. -/
theorem qvaRunAux_probs_take (m : HMMConfig)
    (commit : ℕ → List ℚ → ℕ) :
    ∀ (obs : List Char) (t : ℕ) (probs : List ℚ) (k : ℕ),
      k < obs.length →
      (qvaRunAux m commit t probs (obs.take (k + 1))).2 =
        m.trans_prob.getD ((qvaRunAux m commit t probs obs).1.getD k 0) [] := by
  intro obs
  induction obs with
  | nil => intro t probs k hk; simp at hk
  | cons c rest ih =>
    intro t probs k hk
    cases k with
    | zero => simp [qvaRunAux]
    | succ k =>
      have hk' : k < rest.length := by simpa using hk
      simp only [List.take_succ_cons, qvaRunAux, List.getD_cons_succ]
      exact ih (t + 1) _ k hk'

/-- C6: the step-local decoder's estimate vector starts at the model's
start distribution; immediately after committing to a state at step `k`
the estimate is exactly that state's transition row; and hence the
estimate entering step `k + 1` depends only on the state committed at
step `k` — two runs (arbitrary measurement outcomes) that commit to the
same state at step `k` carry the same estimate into step `k + 1`. -/
theorem c6_step_local_estimate_invariant (m : HMMConfig)
    (commit commit' : ℕ → List ℚ → ℕ) (obs : List Char) (k : ℕ)
    (hk : k < obs.length) :
    qvaProbsAfter m commit obs 0 = m.start_prob ∧
    qvaProbsAfter m commit obs (k + 1) =
      m.trans_prob.getD ((qvaPath m commit obs).getD k 0) [] ∧
    ((qvaPath m commit obs).getD k 0 = (qvaPath m commit' obs).getD k 0 →
      qvaProbsAfter m commit obs (k + 1) =
        qvaProbsAfter m commit' obs (k + 1)) := by
  refine ⟨rfl, qvaRunAux_probs_take m commit obs 0 m.start_prob k hk, ?_⟩
  intro hsame
  show (qvaRunAux m commit 0 m.start_prob (obs.take (k + 1))).2 =
    (qvaRunAux m commit' 0 m.start_prob (obs.take (k + 1))).2
  rw [qvaRunAux_probs_take m commit obs 0 m.start_prob k hk,
    qvaRunAux_probs_take m commit' obs 0 m.start_prob k hk]
  exact congrArg (fun i => m.trans_prob.getD i []) hsame

theorem c6_step_local_estimate_invariant_witness :
    qvaProbsAfter hmm_2_state_exon_intron (fun _ _ => 0) "AT".toList 0 =
      hmm_2_state_exon_intron.start_prob ∧
    qvaProbsAfter hmm_2_state_exon_intron (fun _ _ => 0) "AT".toList 1 =
      hmm_2_state_exon_intron.trans_prob.getD
        ((qvaPath hmm_2_state_exon_intron (fun _ _ => 0) "AT".toList).getD 0 0)
        [] ∧
    ((qvaPath hmm_2_state_exon_intron (fun _ _ => 0) "AT".toList).getD 0 0 =
        (qvaPath hmm_2_state_exon_intron (fun _ _ => 2) "AT".toList).getD 0 0 →
      qvaProbsAfter hmm_2_state_exon_intron (fun _ _ => 0) "AT".toList 1 =
        qvaProbsAfter hmm_2_state_exon_intron (fun _ _ => 2) "AT".toList 1) :=
  c6_step_local_estimate_invariant hmm_2_state_exon_intron
    (fun _ _ => 0) (fun _ _ => 2) "AT".toList 0 (by decide)

/-- The seed of `maxQ`'s fold bounds the fold from below. -/
theorem le_foldl_max : ∀ (xs : List ℚ) (x : ℚ), x ≤ xs.foldl max x := by
  intro xs
  induction xs with
  | nil => intro x; exact le_refl x
  | cons y ys ih =>
    intro x
    calc x ≤ max x y := le_max_left x y
    _ ≤ ys.foldl max (max x y) := ih (max x y)

/-- A non-empty list of positive rationals has a positive maximum. -/
theorem maxQ_pos {l : List ℚ} (hne : l ≠ []) (h : ∀ q ∈ l, 0 < q) :
    0 < maxQ l := by
  cases l with
  | nil => exact absurd rfl hne
  | cons x xs =>
    calc (0 : ℚ) < x := h x (by simp)
    _ ≤ xs.foldl max x := le_foldl_max xs x
    _ = maxQ (x :: xs) := rfl

theorem getD_map_range {α : Type} (n k : ℕ) (f : ℕ → α) (d : α)
    (hk : k < n) : ((List.range n).map f).getD k d = f k := by
  simp [List.getD_eq_getElem?_getD, List.getElem?_map, List.getElem?_range, hk]

/-- Positivity is preserved through one Viterbi forward step. -/
theorem deltaStep_pos (m : HMMConfig) (hK : 0 < m.n_states)
    (ht : ∀ j, j < m.n_states → ∀ k, k < m.n_states →
      0 < (m.trans_prob.getD j []).getD k 0)
    (he : ∀ k, k < m.n_states → ∀ o, o < 4 →
      0 < (m.emit_prob.getD k []).getD o 0)
    (prev : List ℚ) (hp : ∀ k, k < m.n_states → 0 < prev.getD k 0)
    (o : ℕ) (ho : o < 4) :
    ∀ k, k < m.n_states → 0 < (ExactViterbi.deltaStep m prev o).getD k 0 := by
  intro k hk
  unfold ExactViterbi.deltaStep
  rw [getD_map_range _ _ _ _ hk]
  refine mul_pos (maxQ_pos ?_ ?_) (he k hk o ho)
  · unfold ExactViterbi.transInto
    simp only [ne_eq, List.map_eq_nil_iff, List.range_eq_nil]
    omega
  · intro q hq
    unfold ExactViterbi.transInto at hq
    rw [List.mem_map] at hq
    obtain ⟨j, hj, rfl⟩ := hq
    rw [List.mem_range] at hj
    exact mul_pos (hp j hj) (ht j hj k hk)

/-- Positivity of the final delta vector of the forward sweep. -/
theorem viterbiForward_pos (m : HMMConfig) (hK : 0 < m.n_states)
    (ht : ∀ j, j < m.n_states → ∀ k, k < m.n_states →
      0 < (m.trans_prob.getD j []).getD k 0)
    (he : ∀ k, k < m.n_states → ∀ o, o < 4 →
      0 < (m.emit_prob.getD k []).getD o 0) :
    ∀ (obs : List ℕ), (∀ o ∈ obs, o < 4) →
      ∀ (d : List ℚ), d.length = m.n_states →
        (∀ k, k < m.n_states → 0 < d.getD k 0) →
        (ExactViterbi.viterbiForward m d obs).1.length = m.n_states ∧
          ∀ k, k < m.n_states →
            0 < (ExactViterbi.viterbiForward m d obs).1.getD k 0 := by
  intro obs
  induction obs with
  | nil => intro ho d hlen hd; exact ⟨hlen, hd⟩
  | cons o rest ih =>
    intro ho d hlen hd
    simp only [ExactViterbi.viterbiForward]
    refine ih (fun x hx => ho x (by simp [hx])) _ ?_ ?_
    · simp [ExactViterbi.deltaStep]
    · exact deltaStep_pos m hK ht he d hd o (ho o (by simp))

/-- A positive-entry model gives a positive Viterbi path probability on
every in-alphabet observation sequence. -/
theorem viterbiDecode_prob_pos (m : HMMConfig) (hK : 0 < m.n_states)
    (hs : ∀ k, k < m.n_states → 0 < m.start_prob.getD k 0)
    (ht : ∀ j, j < m.n_states → ∀ k, k < m.n_states →
      0 < (m.trans_prob.getD j []).getD k 0)
    (he : ∀ k, k < m.n_states → ∀ o, o < 4 →
      0 < (m.emit_prob.getD k []).getD o 0)
    (obs : List ℕ) (ho : ∀ o ∈ obs, o < 4) :
    0 < (ExactViterbi.viterbiDecode m obs).2 := by
  cases obs with
  | nil => exact one_pos
  | cons o rest =>
    simp only [ExactViterbi.viterbiDecode]
    have hinit : ∀ k, k < m.n_states →
        0 < (ExactViterbi.deltaInit m o).getD k 0 := by
      intro k hk
      unfold ExactViterbi.deltaInit
      rw [getD_map_range _ _ _ _ hk]
      exact mul_pos (hs k hk) (he k hk o (ho o (by simp)))
    have hlen : (ExactViterbi.deltaInit m o).length = m.n_states := by
      simp [ExactViterbi.deltaInit]
    obtain ⟨hflen, hfpos⟩ := viterbiForward_pos m hK ht he rest
      (fun x hx => ho x (by simp [hx])) _ hlen hinit
    refine maxQ_pos ?_ ?_
    · intro hcon
      rw [hcon] at hflen
      simp at hflen
      omega
    · intro q hq
      obtain ⟨k, hk, hget⟩ := List.getElem_of_mem hq
      have hklt : k < m.n_states := by rw [← hflen]; exact hk
      have := hfpos k hklt
      rwa [List.getD_eq_getElem?_getD, List.getElem?_eq_getElem hk,
        Option.getD_some, hget] at this

/-- Elimination for membership in the 4-letter alphabet. -/
theorem validBase_elim {c : Char} (hc : c ∈ VALID_BASES) :
    c = 'A' ∨ c = 'T' ∨ c = 'G' ∨ c = 'C' := by
  simpa [VALID_BASES] using hc

/-- `base_to_int` maps alphabet characters into the emission-column
range. -/
theorem base_to_int_lt_four {c : Char} (hc : c ∈ VALID_BASES) :
    base_to_int c < 4 := by
  rcases validBase_elim hc with rfl | rfl | rfl | rfl <;> decide

/-- What a successful `validate_sequence` guarantees about its output. -/
theorem validate_sequence_ok {s cleaned : List Char}
    (h : validate_sequence s = .ok cleaned) :
    cleaned = cleanedSeq s ∧ (∀ c ∈ cleaned, c ∈ VALID_BASES) ∧
      cleaned.length ≠ 0 ∧ cleaned.length ≤ 500 := by
  simp only [validate_sequence] at h
  split at h
  · exact absurd h (by simp)
  · split at h
    · exact absurd h (by simp)
    · split at h
      · exact absurd h (by simp)
      · rename_i hfil hzero hlong
        have hcl : cleaned = cleanedSeq s := (Except.ok.inj h).symm
        subst hcl
        refine ⟨rfl, ?_, hzero, by omega⟩
        intro c hc
        rw [not_not] at hfil
        have := List.filter_eq_nil_iff.mp hfil c hc
        have hcont : VALID_BASES.contains c = true := by
          revert this
          cases VALID_BASES.contains c <;> simp
        exact List.mem_of_elem_eq_true hcont

/-- Successful validation propagates to an `ok` classical-decoder result
whose path length is the cleaned length. -/
theorem run_classical_length {m : HMMConfig} {s cleaned : List Char}
    (h : validate_sequence s = .ok cleaned) :
    (run_classical_viterbi m s).map (fun r => r.1.length) =
      .ok cleaned.length := by
  unfold run_classical_viterbi
  rw [h, exceptBind_ok]
  simp [Except.map, ExactViterbi.viterbiDecode_path_length]

/-- C5: the exact decoder returns a state path of the observation's
(cleaned) length for every model; under the named 2-state exon/intron
model, whose start, transition and emission entries are all positive, the
path probability is positive on every validated observation — so the
log-probability `log p` of the source is finite — and in particular the
decode of `"ATGC"` is an `ok` result with a 4-character path and positive
probability. -/
theorem c5_decode_exact_shape :
    (∀ (m : HMMConfig) (s cleaned : List Char),
      validate_sequence s = .ok cleaned →
      (run_classical_viterbi m s).map (fun r => r.1.length) =
        .ok cleaned.length) ∧
    (∀ s cleaned : List Char, validate_sequence s = .ok cleaned →
      ∃ r, run_classical_viterbi hmm_2_state_exon_intron s = .ok r ∧
        r.1.length = cleaned.length ∧ 0 < r.2) ∧
    (∃ r, run_classical_viterbi hmm_2_state_exon_intron "ATGC".toList =
        .ok r ∧ r.1.length = 4 ∧ 0 < r.2) := by
  have hpart2 : ∀ s cleaned : List Char,
      validate_sequence s = .ok cleaned →
      ∃ r, run_classical_viterbi hmm_2_state_exon_intron s = .ok r ∧
        r.1.length = cleaned.length ∧ 0 < r.2 := by
    intro s cleaned h
    obtain ⟨-, hvalid, -, -⟩ := validate_sequence_ok h
    unfold run_classical_viterbi
    rw [h, exceptBind_ok]
    refine ⟨_, rfl, ?_, ?_⟩
    · simp [ExactViterbi.viterbiDecode_path_length]
    · refine viterbiDecode_prob_pos hmm_2_state_exon_intron (by decide)
        (by decide) (by decide) (by decide) _ ?_
      intro o ho
      rw [List.mem_map] at ho
      obtain ⟨c, hc, rfl⟩ := ho
      exact base_to_int_lt_four (hvalid c hc)
  refine ⟨fun m s cleaned h => run_classical_length h, hpart2, ?_⟩
  obtain ⟨r, hr, hlen, hpos⟩ := hpart2 "ATGC".toList "ATGC".toList (by decide)
  exact ⟨r, hr, hlen.trans (by decide), hpos⟩

theorem c5_decode_exact_shape_witness :
    (run_classical_viterbi hmm_2_state_exon_intron "ATGC".toList).map
      (fun r => r.1.length) = .ok ("ATGC".toList.length) ∧
    ∃ r, run_classical_viterbi hmm_2_state_exon_intron "ATGC".toList =
      .ok r ∧ r.1.length = "ATGC".toList.length ∧ 0 < r.2 :=
  ⟨c5_decode_exact_shape.1 hmm_2_state_exon_intron "ATGC".toList
      "ATGC".toList (by decide),
    c5_decode_exact_shape.2.1 "ATGC".toList "ATGC".toList (by decide)⟩

/-- Alphabet characters are untouched by upper-casing and by both cleaning
filters. -/
theorem validBase_clean {c : Char} (hc : c ∈ VALID_BASES) :
    c.toUpper = c ∧ (c != '\n' && c != ' ') = true ∧
      c.isWhitespace = false := by
  rcases validBase_elim hc with rfl | rfl | rfl | rfl <;>
    exact ⟨by decide, by decide, by decide⟩

theorem dropWhile_eq_self_of_all {p : Char → Bool} {s : List Char}
    (h : ∀ c ∈ s, p c = false) : s.dropWhile p = s := by
  cases s with
  | nil => rfl
  | cons c cs => rw [List.dropWhile_cons]; simp [h c (by simp)]

/-- Stripping does nothing on whitespace-free strings. -/
theorem pyStrip_eq_self {s : List Char}
    (h : ∀ c ∈ s, c.isWhitespace = false) : pyStrip s = s := by
  unfold pyStrip
  rw [dropWhile_eq_self_of_all h,
    dropWhile_eq_self_of_all (fun c hc => h c (List.mem_reverse.mp hc))]
  exact List.reverse_reverse s

/-- The `validate_sequence` cleaning step does nothing on alphabet-only
strings. -/
theorem cleanedSeq_of_valid {s : List Char}
    (h : ∀ c ∈ s, c ∈ VALID_BASES) : cleanedSeq s = s := by
  induction s with
  | nil => rfl
  | cons c cs ih =>
    have hc := validBase_clean (h c (by simp))
    have ihv := ih (fun x hx => h x (by simp [hx]))
    unfold cleanedSeq at ihv ⊢
    rw [List.filter_cons]
    simp only [hc.2.1, if_true, List.map_cons, hc.1, ihv]

/-- No alphabet character is filtered as invalid. -/
theorem filter_invalid_nil {s : List Char}
    (h : ∀ c ∈ s, c ∈ VALID_BASES) :
    s.filter (fun c => !(VALID_BASES.contains c)) = [] := by
  refine List.filter_eq_nil_iff.mpr ?_
  intro c hc
  simpa using h c hc

/-- `PhysioQEncoder.validate` passes alphabet-only strings through
unchanged — with no length bound. -/
theorem physio_validate_ok {s : List Char}
    (h : ∀ c ∈ s, c ∈ VALID_BASES) :
    PhysioQEncoder.validate s = .ok s := by
  have hstrip : pyStrip s = s :=
    pyStrip_eq_self (fun c hc => (validBase_clean (h c hc)).2.2)
  have hmap : s.map Char.toUpper = s := by
    rw [List.map_congr_left (fun c hc => (validBase_clean (h c hc)).1)]
    exact List.map_id s
  unfold PhysioQEncoder.validate
  rw [hstrip, hmap]
  simp [filter_invalid_nil h]
  exact h

/-- `validate_sequence` rejects over-long alphabet-only inputs with the
length error. -/
theorem validate_sequence_too_long {s : List Char}
    (hv : ∀ c ∈ s, c ∈ VALID_BASES) (hlen : 500 < s.length) :
    validate_sequence s = .error .sequenceTooLong := by
  simp only [validate_sequence, cleanedSeq_of_valid hv, filter_invalid_nil hv]
  simp [show ¬s.length = 0 by omega, hlen]

/-- `SmithWaterman._validate_inputs` accepts non-empty alphabet-only
inputs of any length. -/
theorem sw_validate_ok {s : List Char}
    (hv : ∀ c ∈ s, c ∈ VALID_BASES) (hne : s ≠ []) :
    SmithWaterman.validate_inputs s s = .ok (s, s) := by
  unfold SmithWaterman.validate_inputs
  rw [physio_validate_ok hv, exceptBind_ok, exceptBind_ok]
  simp [List.length_eq_zero, hne]

/-- `VQEAlignment._validate_inputs` rejects over-long alphabet-only
inputs with the length error. -/
theorem vqe_validate_too_long {s : List Char}
    (hv : ∀ c ∈ s, c ∈ VALID_BASES) (hlen : 500 < s.length) :
    VQEAlignment.validate_inputs 4096 s s = .error .sequenceTooLong := by
  unfold VQEAlignment.validate_inputs
  rw [physio_validate_ok hv, exceptBind_ok, exceptBind_ok]
  simp [show ¬s.length = 0 by omega, hlen]

/-- C8 (amended): on an alphabet-only input longer than 500 symbols,
`validate_sequence`, both decoders, and global-mode alignment (plus its
windowed variant) all fail with the length error before any DP work; but
local-mode alignment (`SmithWaterman`) performs no length check at all —
its validation succeeds and the alignment proceeds to the DP fill. -/
theorem c8_oversize_validation (s : List Char) (m : HMMConfig)
    (commit : ℕ → List ℚ → ℕ) (w o : ℕ)
    (hv : ∀ c ∈ s, c ∈ VALID_BASES) (hlen : 500 < s.length) :
    validate_sequence s = .error .sequenceTooLong ∧
    run_classical_viterbi m s = .error .sequenceTooLong ∧
    run_quantum_viterbi m commit s = .error .sequenceTooLong ∧
    VQEAlignment.validate_inputs 4096 s s = .error .sequenceTooLong ∧
    VQEAlignment.align s s = .error .sequenceTooLong ∧
    VQEAlignment.align_windowed s s w o = .error .sequenceTooLong ∧
    SmithWaterman.validate_inputs s s = .ok (s, s) ∧
    SmithWaterman.align s s = .ok (SmithWaterman.alignCore s s) := by
  have hne : s ≠ [] := by intro hcon; rw [hcon] at hlen; simp at hlen
  have h1 := validate_sequence_too_long hv hlen
  have h4 := vqe_validate_too_long hv hlen
  have h7 := sw_validate_ok hv hne
  refine ⟨h1, ?_, ?_, h4, ?_, ?_, h7, ?_⟩
  · unfold run_classical_viterbi; rw [h1]; rfl
  · unfold run_quantum_viterbi; rw [h1]; rfl
  · unfold VQEAlignment.align; rw [h4]; rfl
  · unfold VQEAlignment.align_windowed; rw [h4]; rfl
  · unfold SmithWaterman.align; rw [h7, exceptBind_ok]

/-- C8 (counterexample to the claim as stated): on the 501-symbol input
`"A" * 501` the local-mode aligner does not fail with the length error —
its validation succeeds and it returns an alignment result. -/
theorem c8_counterexample :
    500 < (List.replicate 501 'A').length ∧
    cleanedSeq (List.replicate 501 'A') = List.replicate 501 'A' ∧
    SmithWaterman.align (List.replicate 501 'A') (List.replicate 501 'A') =
      .ok (SmithWaterman.alignCore (List.replicate 501 'A')
        (List.replicate 501 'A')) ∧
    SmithWaterman.align (List.replicate 501 'A') (List.replicate 501 'A') ≠
      .error .sequenceTooLong := by
  have hv : ∀ c ∈ List.replicate 501 'A', c ∈ VALID_BASES := by
    intro c hc; rw [List.eq_of_mem_replicate hc]; decide
  have hne : (List.replicate 501 'A' : List Char) ≠ [] := by simp
  have hok : SmithWaterman.align (List.replicate 501 'A')
      (List.replicate 501 'A') =
      .ok (SmithWaterman.alignCore (List.replicate 501 'A')
        (List.replicate 501 'A')) := by
    unfold SmithWaterman.align
    rw [sw_validate_ok hv hne, exceptBind_ok]
  refine ⟨by simp, cleanedSeq_of_valid hv, hok, ?_⟩
  rw [hok]
  intro hcon
  exact Except.noConfusion hcon

theorem c8_oversize_validation_witness :
    validate_sequence (List.replicate 501 'A') = .error .sequenceTooLong ∧
    run_classical_viterbi hmm_2_state_exon_intron (List.replicate 501 'A') =
      .error .sequenceTooLong ∧
    run_quantum_viterbi hmm_2_state_exon_intron (fun _ _ => 0)
      (List.replicate 501 'A') = .error .sequenceTooLong ∧
    VQEAlignment.validate_inputs 4096 (List.replicate 501 'A')
      (List.replicate 501 'A') = .error .sequenceTooLong ∧
    VQEAlignment.align (List.replicate 501 'A') (List.replicate 501 'A') =
      .error .sequenceTooLong ∧
    VQEAlignment.align_windowed (List.replicate 501 'A')
      (List.replicate 501 'A') 100 20 = .error .sequenceTooLong ∧
    SmithWaterman.validate_inputs (List.replicate 501 'A')
      (List.replicate 501 'A') =
      .ok (List.replicate 501 'A', List.replicate 501 'A') ∧
    SmithWaterman.align (List.replicate 501 'A') (List.replicate 501 'A') =
      .ok (SmithWaterman.alignCore (List.replicate 501 'A')
        (List.replicate 501 'A')) :=
  c8_oversize_validation (List.replicate 501 'A') hmm_2_state_exon_intron
    (fun _ _ => 0) 100 20
    (fun c hc => by rw [List.eq_of_mem_replicate hc]; decide)
    (by simp)

/-- Each iteration of the global traceback walk appends exactly one
character to each of the three output strings. -/
theorem nw_tracebackAux_lengths (a b : List Char) :
    ∀ (fuel i j : ℕ),
      (VQEAlignment.tracebackAux a b fuel i j).1.length =
        (VQEAlignment.tracebackAux a b fuel i j).2.1.length ∧
      (VQEAlignment.tracebackAux a b fuel i j).1.length =
        (VQEAlignment.tracebackAux a b fuel i j).2.2.length := by
  intro fuel
  induction fuel with
  | zero => intro i j; exact ⟨rfl, rfl⟩
  | succ fuel ih =>
    intro i j
    simp only [VQEAlignment.tracebackAux]
    split
    · split
      · obtain ⟨h1, h2⟩ := ih (i - 1) (j - 1)
        constructor
        · simp [List.length_append, h1]
        · simp [List.length_append, h2]
      · split
        · obtain ⟨h1, h2⟩ := ih (i - 1) j
          constructor
          · simp [List.length_append, h1]
          · simp [List.length_append, h2]
        · obtain ⟨h1, h2⟩ := ih i (j - 1)
          constructor
          · simp [List.length_append, h1]
          · simp [List.length_append, h2]
    · exact ⟨rfl, rfl⟩

/-- Each iteration of the local traceback walk appends exactly one
character to each of the three output strings. -/
theorem sw_tracebackAux_lengths (a b : List Char) :
    ∀ (fuel i j : ℕ),
      (SmithWaterman.tracebackAux a b fuel i j).1.length =
        (SmithWaterman.tracebackAux a b fuel i j).2.1.length ∧
      (SmithWaterman.tracebackAux a b fuel i j).1.length =
        (SmithWaterman.tracebackAux a b fuel i j).2.2.length := by
  intro fuel
  induction fuel with
  | zero => intro i j; exact ⟨rfl, rfl⟩
  | succ fuel ih =>
    intro i j
    simp only [SmithWaterman.tracebackAux]
    split
    · split
      · obtain ⟨h1, h2⟩ := ih (i - 1) (j - 1)
        constructor
        · simp [List.length_append, h1]
        · simp [List.length_append, h2]
      · split
        · obtain ⟨h1, h2⟩ := ih (i - 1) j
          constructor
          · simp [List.length_append, h1]
          · simp [List.length_append, h2]
        · obtain ⟨h1, h2⟩ := ih i (j - 1)
          constructor
          · simp [List.length_append, h1]
          · simp [List.length_append, h2]
    · exact ⟨rfl, rfl⟩

/-- C3 (amended): every global-mode result has aligned strings and
annotation of one common length; every local-mode result has
`aligned_sequence1` and the annotation of one common length, and
`aligned_sequence2` of that same length whenever some cell was positive —
but in the degenerate local case (no positive cell) the aligned strings
are the unmodified inputs (so their lengths coincide only when the inputs'
do), the annotation is all-mismatch of the first input's length, and the
score is 0. -/
theorem c3_alignment_result_lengths :
    (∀ s1 s2 v, VQEAlignment.validate_inputs 4096 s1 s2 = .ok v →
      ∃ r, VQEAlignment.align s1 s2 = .ok r ∧
        r.aligned_sequence1.length = r.aligned_sequence2.length ∧
        r.aligned_sequence1.length = r.alignment_path.length) ∧
    (∀ s1 s2 v, SmithWaterman.validate_inputs s1 s2 = .ok v →
      ∃ r, SmithWaterman.align s1 s2 = .ok r ∧
        (((SmithWaterman.maxCell v.1 v.2).2.1 = 0 ∨
            (SmithWaterman.maxCell v.1 v.2).2.2 = 0) →
          r.score = 0 ∧ r.aligned_sequence1 = v.1 ∧
            r.aligned_sequence2 = v.2 ∧
            r.alignment_path = List.replicate v.1.length 'I') ∧
        (¬((SmithWaterman.maxCell v.1 v.2).2.1 = 0 ∨
            (SmithWaterman.maxCell v.1 v.2).2.2 = 0) →
          r.aligned_sequence1.length = r.aligned_sequence2.length ∧
            r.aligned_sequence1.length = r.alignment_path.length) ∧
        r.aligned_sequence1.length = r.alignment_path.length) := by
  constructor
  · intro s1 s2 v hval
    unfold VQEAlignment.align
    rw [hval, exceptBind_ok]
    refine ⟨_, rfl, ?_, ?_⟩
    · exact (nw_tracebackAux_lengths v.1 v.2 _ _ _).1
    · exact (nw_tracebackAux_lengths v.1 v.2 _ _ _).2
  · intro s1 s2 v hval
    unfold SmithWaterman.align
    rw [hval, exceptBind_ok]
    refine ⟨_, rfl, ?_, ?_, ?_⟩
    · intro hdeg
      unfold SmithWaterman.alignCore
      rw [if_pos hdeg]
      exact ⟨rfl, rfl, rfl, rfl⟩
    · intro hdeg
      unfold SmithWaterman.alignCore
      rw [if_neg hdeg]
      exact ⟨(sw_tracebackAux_lengths v.1 v.2 _ _ _).1,
        (sw_tracebackAux_lengths v.1 v.2 _ _ _).2⟩
    · by_cases hdeg : (SmithWaterman.maxCell v.1 v.2).2.1 = 0 ∨
          (SmithWaterman.maxCell v.1 v.2).2.2 = 0
      · unfold SmithWaterman.alignCore
        rw [if_pos hdeg]
        simp
      · unfold SmithWaterman.alignCore
        rw [if_neg hdeg]
        exact (sw_tracebackAux_lengths v.1 v.2 _ _ _).2

theorem c3_alignment_result_lengths_witness :
    (∃ r, VQEAlignment.align "AT".toList "A".toList = .ok r ∧
      r.aligned_sequence1.length = r.aligned_sequence2.length ∧
      r.aligned_sequence1.length = r.alignment_path.length) ∧
    (∃ r, SmithWaterman.align "AA".toList "T".toList = .ok r ∧
      (((SmithWaterman.maxCell "AA".toList "T".toList).2.1 = 0 ∨
          (SmithWaterman.maxCell "AA".toList "T".toList).2.2 = 0) →
        r.score = 0 ∧ r.aligned_sequence1 = "AA".toList ∧
          r.aligned_sequence2 = "T".toList ∧
          r.alignment_path = List.replicate "AA".toList.length 'I') ∧
      (¬((SmithWaterman.maxCell "AA".toList "T".toList).2.1 = 0 ∨
          (SmithWaterman.maxCell "AA".toList "T".toList).2.2 = 0) →
        r.aligned_sequence1.length = r.aligned_sequence2.length ∧
          r.aligned_sequence1.length = r.alignment_path.length) ∧
      r.aligned_sequence1.length = r.alignment_path.length) :=
  ⟨c3_alignment_result_lengths.1 "AT".toList "A".toList
      ("AT".toList, "A".toList) (by decide),
    c3_alignment_result_lengths.2 "AA".toList "T".toList
      ("AA".toList, "T".toList) (by decide)⟩

/-- C3 (counterexample to the claim as stated): the degenerate local
result on inputs of different lengths returns the unmodified inputs as
aligned strings, so the three strings do not share one length. -/
theorem c3_counterexample :
    SmithWaterman.align "AA".toList "T".toList =
      .ok { score := 0, aligned_sequence1 := "AA".toList,
            aligned_sequence2 := "T".toList,
            alignment_path := "II".toList,
            start_position := (0, 0), end_position := (0, 0) } ∧
    "T".toList.length ≠ "AA".toList.length ∧
    "T".toList.length ≠ "II".toList.length := by decide

/-- The `_init_matrices` value of row 0 of the global score matrix. -/
theorem VQEAlignment.score_zero_left (a b : List Char) (j : ℕ) :
    VQEAlignment.score a b 0 j = j * VQEAlignment.gap_penalty := rfl

/-- The `_init_matrices` value of column 0 of the global score matrix. -/
theorem VQEAlignment.score_left_col (a b : List Char) (i : ℕ) :
    VQEAlignment.score a b (i + 1) 0 =
      (i + 1 : ℕ) * VQEAlignment.gap_penalty := rfl

/-- The interior recurrence of `VQEAlignment._fill`. -/
theorem VQEAlignment.score_succ_succ (a b : List Char) (i j : ℕ) :
    VQEAlignment.score a b (i + 1) (j + 1) =
      max (max (VQEAlignment.score a b i j +
          (if a.getD i ' ' = b.getD j ' ' then VQEAlignment.match_score
            else VQEAlignment.mismatch_penalty))
        (VQEAlignment.score a b i (j + 1) + VQEAlignment.gap_penalty))
        (VQEAlignment.score a b (i + 1) j + VQEAlignment.gap_penalty) := rfl

/-- Score bound for self-alignment: every cell of the matrix for `(s, s)`
is at most `6·min(i,j) − 2·(i+j)` (with match 2, mismatch −1, gap −2). -/
theorem VQEAlignment.score_self_le (s : List Char) :
    ∀ i j : ℕ, VQEAlignment.score s s i j ≤
      6 * (min i j : ℤ) - 2 * ((i : ℤ) + j) := by
  intro i
  induction i with
  | zero =>
    intro j
    rw [VQEAlignment.score_zero_left,
      show VQEAlignment.gap_penalty = -2 from rfl]
    push_cast
    omega
  | succ i ihi =>
    intro j
    induction j with
    | zero =>
      rw [VQEAlignment.score_left_col,
        show VQEAlignment.gap_penalty = -2 from rfl]
      push_cast
      omega
    | succ j ihj =>
      rw [VQEAlignment.score_succ_succ,
        show VQEAlignment.gap_penalty = -2 from rfl]
      have h1 := ihi j
      have h2 := ihi (j + 1)
      have hw : (if s.getD i ' ' = s.getD j ' '
          then VQEAlignment.match_score
          else VQEAlignment.mismatch_penalty) ≤ 2 := by
        split
        · exact le_of_eq rfl
        · rw [show VQEAlignment.mismatch_penalty = -1 from rfl]; omega
      refine max_le (max_le ?_ ?_) ?_
      · push_cast at h1 ⊢
        omega
      · push_cast at h2 ⊢
        omega
      · push_cast at ihj ⊢
        omega

/-- Diagonal cells of the self-alignment matrix carry the all-match
score. -/
theorem VQEAlignment.score_self_diag (s : List Char) :
    ∀ i : ℕ, VQEAlignment.score s s i i = 2 * i := by
  intro i
  induction i with
  | zero =>
    rw [VQEAlignment.score_zero_left]
    simp
  | succ i ih =>
    rw [VQEAlignment.score_succ_succ, if_pos rfl,
      show VQEAlignment.match_score = 2 from rfl,
      show VQEAlignment.gap_penalty = -2 from rfl, ih]
    have h2 := VQEAlignment.score_self_le s i (i + 1)
    have h3 := VQEAlignment.score_self_le s (i + 1) i
    push_cast at h2 h3 ⊢
    omega

/-- The interior traceback tag, phrased through the cell value. -/
theorem VQEAlignment.tag_interior (a b : List Char) (i j : ℕ) :
    VQEAlignment.tag a b (i + 1) (j + 1) =
      if VQEAlignment.score a b (i + 1) (j + 1) =
          VQEAlignment.score a b i j +
            (if a.getD i ' ' = b.getD j ' ' then VQEAlignment.match_score
              else VQEAlignment.mismatch_penalty) then 0
      else if VQEAlignment.score a b (i + 1) (j + 1) =
          VQEAlignment.score a b i (j + 1) + VQEAlignment.gap_penalty then 1
      else 2 := by
  simp only [VQEAlignment.tag]
  rw [← VQEAlignment.score_succ_succ]

/-- On the diagonal of a self-alignment the traceback tag is always
diagonal. -/
theorem VQEAlignment.tag_self_diag (s : List Char) (i : ℕ) :
    VQEAlignment.tag s s (i + 1) (i + 1) = 0 := by
  have hdiag : VQEAlignment.score s s (i + 1) (i + 1) =
      VQEAlignment.score s s i i +
        (if s.getD i ' ' = s.getD i ' ' then VQEAlignment.match_score
          else VQEAlignment.mismatch_penalty) := by
    rw [if_pos rfl, VQEAlignment.score_self_diag, VQEAlignment.score_self_diag,
      show VQEAlignment.match_score = 2 from rfl]
    push_cast
    ring
  rw [VQEAlignment.tag_interior, if_pos hdiag]

/-- The global traceback on a self-alignment walks the diagonal and
reproduces the sequence with an all-match annotation. -/
theorem VQEAlignment.traceback_self (s : List Char) :
    ∀ i : ℕ, i ≤ s.length → ∀ fuel : ℕ, i ≤ fuel →
      VQEAlignment.tracebackAux s s fuel i i =
        (s.take i, s.take i, List.replicate i 'E') := by
  intro i
  induction i with
  | zero =>
    intro _ fuel _
    cases fuel with
    | zero => rfl
    | succ f => simp [VQEAlignment.tracebackAux]
  | succ i ih =>
    intro hi fuel hfuel
    cases fuel with
    | zero => omega
    | succ f =>
      have hi' : i < s.length := by omega
      simp only [VQEAlignment.tracebackAux]
      rw [if_pos (Or.inl (Nat.succ_pos i)), VQEAlignment.tag_self_diag,
        if_pos rfl]
      simp only [Nat.add_sub_cancel]
      rw [ih (by omega) f (by omega)]
      have htake : s.take i ++ [s.getD i ' '] = s.take (i + 1) := by
        rw [List.take_succ, List.getElem?_eq_getElem hi']
        simp [List.getD_eq_getElem?_getD, List.getElem?_eq_getElem hi']
      simp only [if_pos rfl, if_true]
      rw [htake, ← List.replicate_succ']

/-- `VQEAlignment._validate_inputs` accepts alphabet-only non-empty
inputs within the 500 bound. -/
theorem vqe_validate_ok {s : List Char} (hv : ∀ c ∈ s, c ∈ VALID_BASES)
    (hne : s ≠ []) (hlen : s.length ≤ 500) :
    VQEAlignment.validate_inputs 4096 s s = .ok (s, s) := by
  unfold VQEAlignment.validate_inputs
  rw [physio_validate_ok hv, exceptBind_ok, exceptBind_ok]
  have h0 : ¬(s.length = 0 ∨ s.length = 0) := by
    simp [List.length_eq_zero, hne]
  have h1 : ¬(s.length > 500 ∨ s.length > 500) := by omega
  have h2 : ¬((s.length + s.length) * 3 > 4096) := by omega
  rw [if_neg h0, if_neg h1, if_neg h2]

/-- C4: aligning any validated sequence with itself in global mode yields
the raw score `n · match = 2n`, both aligned strings equal to the input,
and an all-match annotation; in particular `align("ATGC","ATGC")` returns
raw score 8, aligned strings `"ATGC"`, annotation `"EEEE"`. -/
theorem c4_identical_global_alignment :
    (∀ s : List Char, (∀ c ∈ s, c ∈ VALID_BASES) → s ≠ [] →
      s.length ≤ 500 →
      VQEAlignment.align s s = .ok (VQEAlignment.alignCore s s) ∧
      (VQEAlignment.alignCore s s).alignment_score_raw = 2 * s.length ∧
      (VQEAlignment.alignCore s s).aligned_sequence1 = s ∧
      (VQEAlignment.alignCore s s).aligned_sequence2 = s ∧
      (VQEAlignment.alignCore s s).alignment_path =
        List.replicate s.length 'E') ∧
    (VQEAlignment.align "ATGC".toList "ATGC".toList).map
        (fun r => (r.alignment_score_raw, r.aligned_sequence1,
          r.aligned_sequence2, r.alignment_path)) =
      .ok (8, "ATGC".toList, "ATGC".toList, "EEEE".toList) := by
  constructor
  · intro s hv hne hlen
    have halign : VQEAlignment.align s s = .ok (VQEAlignment.alignCore s s) := by
      unfold VQEAlignment.align
      rw [vqe_validate_ok hv hne hlen, exceptBind_ok]
    have htb : VQEAlignment.tracebackFn s s =
        (s, s, List.replicate s.length 'E') := by
      unfold VQEAlignment.tracebackFn
      rw [VQEAlignment.traceback_self s s.length (le_refl _)
        (s.length + s.length) (by omega), List.take_length]
    refine ⟨halign, ?_, ?_, ?_, ?_⟩ <;>
      simp [VQEAlignment.alignCore, htb, VQEAlignment.score_self_diag]
  · decide

theorem c4_identical_global_alignment_witness :
    VQEAlignment.align "AT".toList "AT".toList =
      .ok (VQEAlignment.alignCore "AT".toList "AT".toList) ∧
    (VQEAlignment.alignCore "AT".toList "AT".toList).alignment_score_raw =
      2 * "AT".toList.length ∧
    (VQEAlignment.alignCore "AT".toList "AT".toList).aligned_sequence1 =
      "AT".toList ∧
    (VQEAlignment.alignCore "AT".toList "AT".toList).aligned_sequence2 =
      "AT".toList ∧
    (VQEAlignment.alignCore "AT".toList "AT".toList).alignment_path =
      List.replicate "AT".toList.length 'E' :=
  c4_identical_global_alignment.1 "AT".toList (by decide) (by decide)
    (by decide)

/-- Every start index produced by the window loop lies inside the
sequence. -/
theorem VQEAlignment.rangeByAux_lt (stop step : ℕ) :
    ∀ (fuel cur x : ℕ), x ∈ VQEAlignment.rangeByAux stop step fuel cur →
      x < stop := by
  intro fuel
  induction fuel with
  | zero => intro cur x hx; simp [VQEAlignment.rangeByAux] at hx
  | succ fuel ih =>
    intro cur x hx
    simp only [VQEAlignment.rangeByAux] at hx
    split at hx
    · rcases List.mem_cons.mp hx with rfl | hx'
      · rename_i h; exact h.1
      · exact ih (cur + step) x hx'
    · simp at hx

theorem VQEAlignment.rangeBy_lt {stop step x : ℕ}
    (hx : x ∈ VQEAlignment.rangeBy stop step) : x < stop :=
  VQEAlignment.rangeByAux_lt stop step stop 0 x hx

/-- The window loop starts at 0 whenever the sequence is non-empty and the
stride is positive. -/
theorem VQEAlignment.zero_mem_rangeBy {stop step : ℕ} (hstop : 0 < stop)
    (hstep : 0 < step) : 0 ∈ VQEAlignment.rangeBy stop step := by
  unfold VQEAlignment.rangeBy
  cases stop with
  | zero => omega
  | succ n =>
    simp only [VQEAlignment.rangeByAux]
    rw [if_pos ⟨hstop, hstep⟩]
    simp

/-- Characters of a window are characters of the sequence. -/
theorem VQEAlignment.slice_subset (a : List Char) (s e : ℕ) :
    ∀ c ∈ VQEAlignment.slice a s e, c ∈ a := by
  intro c hc
  unfold VQEAlignment.slice at hc
  exact (a.drop_subset s) ((List.take_subset _ _) hc)

/-- The length of a window slice. -/
theorem VQEAlignment.slice_length (a : List Char) (s e : ℕ) :
    (VQEAlignment.slice a s e).length = min (e - s) (a.length - s) := by
  unfold VQEAlignment.slice
  rw [List.length_take, List.length_drop]

/-- A window starting inside the sequence with a positive window size is
non-empty. -/
theorem VQEAlignment.slice_window_ne_nil (a : List Char) (s w : ℕ)
    (hs : s < a.length) (hw : 0 < w) :
    VQEAlignment.slice a s (min (s + w) a.length) ≠ [] := by
  have h := VQEAlignment.slice_length a s (min (s + w) a.length)
  intro hcon
  rw [hcon] at h
  simp only [List.length_nil] at h
  omega

/-- A window slice never exceeds the sequence's length. -/
theorem VQEAlignment.slice_length_le (a : List Char) (s e : ℕ) :
    (VQEAlignment.slice a s e).length ≤ a.length := by
  rw [VQEAlignment.slice_length]
  omega

/-- Two-sequence version of the validation success lemma. -/
theorem vqe_validate_ok2 {s1 s2 : List Char}
    (hv1 : ∀ c ∈ s1, c ∈ VALID_BASES) (hv2 : ∀ c ∈ s2, c ∈ VALID_BASES)
    (hne1 : s1 ≠ []) (hne2 : s2 ≠ [])
    (hl1 : s1.length ≤ 500) (hl2 : s2.length ≤ 500) :
    VQEAlignment.validate_inputs 4096 s1 s2 = .ok (s1, s2) := by
  unfold VQEAlignment.validate_inputs
  rw [physio_validate_ok hv1, exceptBind_ok, physio_validate_ok hv2,
    exceptBind_ok]
  have h0 : ¬(s1.length = 0 ∨ s2.length = 0) := by
    simp [List.length_eq_zero, hne1, hne2]
  have h1 : ¬(s1.length > 500 ∨ s2.length > 500) := by omega
  have h2 : ¬((s1.length + s2.length) * 3 > 4096) := by omega
  rw [if_neg h0, if_neg h1, if_neg h2]

/-- `mapM` over all-successful elements is the successful map. -/
theorem mapM_eq_ok_map {α β : Type} (l : List α)
    (f : α → Except ValidationError β) (g : α → β)
    (h : ∀ x ∈ l, f x = .ok (g x)) : l.mapM f = .ok (l.map g) := by
  induction l with
  | nil => rfl
  | cons x xs ih =>
    rw [List.mapM_cons, h x (by simp), exceptBind_ok,
      ih (fun z hz => h z (by simp [hz])), exceptBind_ok, List.map_cons]
    rfl

/-- The per-window global-mode results of the source's windowed loop:
every window pair of the Cartesian product (outer loop over sequence-A
windows, inner loop over sequence-B windows, stride `w − o`) aligned with
the same class's global `align`. -/
def windowedGlobalResults (a b : List Char) (w o : ℕ) : List NWResult :=
  let stride := w - o
  ((VQEAlignment.rangeBy a.length stride).flatMap
      (fun start1 => (VQEAlignment.rangeBy b.length stride).map
        (fun start2 => (start1, start2)))).map
    (fun st => VQEAlignment.alignCore
      (VQEAlignment.slice a st.1 (min (st.1 + w) a.length))
      (VQEAlignment.slice b st.2 (min (st.2 + w) b.length)))

/-- C2 (amended): on validated inputs with at least one sequence longer
than the window, `align_windowed` runs the *global* Needleman–Wunsch
aligner on every window pair of the Cartesian product (outer loop over
sequence-A windows, inner loop over sequence-B windows, stride `w − o`)
and returns the windowed result whose overall score is the average of the
per-window (normalized) scores and whose annotation is the concatenation
of the per-window annotations in window-iteration order. -/
theorem c2_windowed_global_alignment (a b : List Char) (w o : ℕ)
    (hv1 : ∀ c ∈ a, c ∈ VALID_BASES) (hv2 : ∀ c ∈ b, c ∈ VALID_BASES)
    (hne1 : a ≠ []) (hne2 : b ≠ [])
    (hl1 : a.length ≤ 500) (hl2 : b.length ≤ 500)
    (how : o < w) (hlong : w < a.length ∨ w < b.length) :
    0 < (windowedGlobalResults a b w o).length ∧
    VQEAlignment.align_windowed a b w o = .ok (.inr
      { windows_processed := (windowedGlobalResults a b w o).length
        average_score := ((windowedGlobalResults a b w o).map
            (·.alignment_score)).sum /
          ((windowedGlobalResults a b w o).length : ℕ)
        window_scores := (windowedGlobalResults a b w o).map
          (·.alignment_score)
        alignment_path := ((windowedGlobalResults a b w o).map
          (·.alignment_path)).flatten }) := by
  have hstride : 0 < w - o := by omega
  have hlenpos : 0 < (windowedGlobalResults a b w o).length := by
    have hmem : ((0, 0) : ℕ × ℕ) ∈
        (VQEAlignment.rangeBy a.length (w - o)).flatMap
          (fun start1 => (VQEAlignment.rangeBy b.length (w - o)).map
            (fun start2 => (start1, start2))) := by
      rw [List.mem_flatMap]
      refine ⟨0, VQEAlignment.zero_mem_rangeBy (by
        simp [List.length_pos, hne1]) hstride, ?_⟩
      rw [List.mem_map]
      exact ⟨0, VQEAlignment.zero_mem_rangeBy (by
        simp [List.length_pos, hne2]) hstride, rfl⟩
    unfold windowedGlobalResults
    rw [List.length_map]
    exact List.length_pos.mpr (List.ne_nil_of_mem hmem)
  refine ⟨hlenpos, ?_⟩
  unfold VQEAlignment.align_windowed
  rw [vqe_validate_ok2 hv1 hv2 hne1 hne2 hl1 hl2, exceptBind_ok]
  dsimp only
  have hfits : ¬(a.length ≤ w ∧ b.length ≤ w) := by omega
  rw [if_neg hfits]
  have hinner : ∀ st : ℕ × ℕ, st ∈
      (VQEAlignment.rangeBy a.length (w - o)).flatMap
        (fun start1 => (VQEAlignment.rangeBy b.length (w - o)).map
          (fun start2 => (start1, start2))) →
      VQEAlignment.align
          (VQEAlignment.slice a st.1 (min (st.1 + w) a.length))
          (VQEAlignment.slice b st.2 (min (st.2 + w) b.length)) =
        .ok (VQEAlignment.alignCore
          (VQEAlignment.slice a st.1 (min (st.1 + w) a.length))
          (VQEAlignment.slice b st.2 (min (st.2 + w) b.length))) := by
    intro st hst
    rw [List.mem_flatMap] at hst
    obtain ⟨s1, hs1, hst'⟩ := hst
    rw [List.mem_map] at hst'
    obtain ⟨s2, hs2, rfl⟩ := hst'
    have hs1' : s1 < a.length := VQEAlignment.rangeBy_lt hs1
    have hs2' : s2 < b.length := VQEAlignment.rangeBy_lt hs2
    unfold VQEAlignment.align
    rw [vqe_validate_ok2
      (fun c hc => hv1 c (VQEAlignment.slice_subset a _ _ c hc))
      (fun c hc => hv2 c (VQEAlignment.slice_subset b _ _ c hc))
      (VQEAlignment.slice_window_ne_nil a s1 w hs1' (by omega))
      (VQEAlignment.slice_window_ne_nil b s2 w hs2' (by omega))
      (le_trans (VQEAlignment.slice_length_le a _ _) hl1)
      (le_trans (VQEAlignment.slice_length_le b _ _) hl2),
      exceptBind_ok]
  rw [mapM_eq_ok_map _ _ _ hinner, exceptBind_ok]
  have hres : 1 ≤ (((VQEAlignment.rangeBy a.length (w - o)).flatMap
      (fun start1 => (VQEAlignment.rangeBy b.length (w - o)).map
        (fun start2 => (start1, start2)))).map
      (fun st => VQEAlignment.alignCore
        (VQEAlignment.slice a st.1 (min (st.1 + w) a.length))
        (VQEAlignment.slice b st.2 (min (st.2 + w) b.length)))).length :=
    hlenpos
  rw [Nat.max_eq_right hres]
  rfl

theorem c2_windowed_global_alignment_witness :
    0 < (windowedGlobalResults "AAAA".toList "AAAA".toList 3 1).length ∧
    VQEAlignment.align_windowed "AAAA".toList "AAAA".toList 3 1 = .ok (.inr
      { windows_processed :=
          (windowedGlobalResults "AAAA".toList "AAAA".toList 3 1).length
        average_score :=
          ((windowedGlobalResults "AAAA".toList "AAAA".toList 3 1).map
            (·.alignment_score)).sum /
          ((windowedGlobalResults "AAAA".toList "AAAA".toList 3 1).length : ℕ)
        window_scores :=
          (windowedGlobalResults "AAAA".toList "AAAA".toList 3 1).map
            (·.alignment_score)
        alignment_path :=
          ((windowedGlobalResults "AAAA".toList "AAAA".toList 3 1).map
            (·.alignment_path)).flatten }) :=
  c2_windowed_global_alignment "AAAA".toList "AAAA".toList 3 1
    (by decide) (by decide) (by decide) (by decide) (by decide) (by decide)
    (by decide) (Or.inl (by decide))

/-- C2 (counterexample to the claim as stated): with windows of size 3 and
overlap 1 over `("AAAA", "AAAA")` — inputs longer than the window — the
code's windowed annotation is the concatenation of per-window *global*
alignments (11 characters), while running the repository's *local*
aligner on every window pair, as the claim states, concatenates to the
empty string. -/
theorem c2_counterexample :
    3 < "AAAA".toList.length ∧
    (VQEAlignment.align_windowed "AAAA".toList "AAAA".toList 3 1).map
        (fun r => match r with
          | .inl _ => ([] : List Char)
          | .inr wr => wr.alignment_path) = .ok "EEEIEEIEEEE".toList ∧
    windowedLocalPathsClaim "AAAA".toList "AAAA".toList 3 1 = [] ∧
    "EEEIEEIEEEE".toList ≠ ([] : List Char) := by decide
